import Mathlib

/-!
Workspace session state machine, split layout, catalog filter, run-code route.

A shallow embedding of `src/client/src/components/Workspace.jsx`: the React
component state (`language`, `codeCache`, `descriptionWidth`), the `problem`
and `layoutSignal` props, the problem-switch effect keyed on `problem?.slug`,
the handlers wired to the language `<select>` and to the editor, the drag
computation of the divider and the layout effect.  It is followed by the
`filteredProblems` memo of `ProblemDashboard.jsx` and by the language lookup
of the `/api/run-code` handler of `server.js`.

Modelling conventions.

* A JavaScript object holding source texts is the list of its own enumerable
  string-keyed properties in `Object.keys` order.  For the workspace cache,
  property names inherited from `Object.prototype` and array-index-like keys
  are outside the model: keys are language identifiers.  The lookup of the
  run-code handler does model the inherited names.
* `undefined` is `none`.  The `language` state is a string or `undefined`
  (`availableLangs[0]` of an empty array), so it is an `Option String`.
* One call of an operation is one React commit: the state setters queued by a
  handler or by the effect are applied before the next operation runs.
* Numbers are exact rationals extended by the two infinities and NaN.
-/

namespace Workspace

/-- Own enumerable properties of a plain object, in `Object.keys` order. -/
abbrev JSObject := List (String × String)

/-- The array returned by `Object.keys(o)`. -/
def Object.keys (o : JSObject) : List String :=
  o.map Prod.fst

/-- Property read `o[k]`; `none` is `undefined`. -/
def Object.get (o : JSObject) (k : String) : Option String :=
  match o with
  | [] => none
  | (k', v) :: rest => if k' = k then some v else Object.get rest k

/-- Property write `o[k] = v` (also the spread-then-override of
`handleCodeChange`): an existing key keeps its position, a new key is added
last. -/
def Object.set (o : JSObject) (k v : String) : JSObject :=
  match o with
  | [] => [(k, v)]
  | (k', v') :: rest => if k' = k then (k, v) :: rest else (k', v') :: Object.set rest k v

/-- The part of a problem object the workspace state depends on: its unique
`slug` and its optional `code_snippets` mapping. -/
structure Problem where
  slug : String
  code_snippets : Option JSObject
deriving DecidableEq, Repr

/-- Line 5: `const DEFAULT_LANG = 'javascript'`. -/
def DEFAULT_LANG : String := "javascript"

/-- The `problem` prop together with the two pieces of React state of lines
8 and 10. -/
structure State where
  problem : Option Problem
  language : Option String
  codeCache : JSObject
deriving DecidableEq, Repr

/-- The state right after mounting with `problem = null`: `useState`
initialisers of lines 8 and 10; the effect of line 21 ran and returned at
line 22. -/
def init : State :=
  ⟨none, some DEFAULT_LANG, []⟩

/-- The property key a `language` value denotes in `codeCache[language]`:
`undefined` is converted to the string "undefined". -/
def propKey (language : Option String) : String :=
  match language with
  | some l => l
  | none => "undefined"

/-- Lines 15-18: the `languages` memo. -/
def languages (problem : Option Problem) : List String :=
  match problem with
  | none => []
  | some p =>
    match p.code_snippets with
    | none => []
    | some cs => Object.keys cs

/-- The test `availableLangs.includes(language)` of line 25; `undefined` is not an
element of an array of strings. -/
def includes (availableLangs : List String) (language : Option String) : Bool :=
  match language with
  | none => false
  | some l => availableLangs.contains l

/-- Lines 30-33: `newCache` filled by `availableLangs.forEach`.  Every `lang`
is an own key of `code_snippets`, so the read never yields `undefined`. -/
def newCache (code_snippets : JSObject) (availableLangs : List String) : JSObject :=
  availableLangs.foldl
    (fun acc lang =>
      match Object.get code_snippets lang with
      | some v => Object.set acc lang v
      | none => acc)
    []

/-- Lines 22-35: the body of the problem-switch effect, run with the
`problem` and `language` of the render that scheduled it. -/
def problemSwitchEffect (s : State) : State :=
  match s.problem with
  | none => s
  | some p =>
    match p.code_snippets with
    | none => s
    | some cs =>
      let availableLangs := Object.keys cs
      let initialLang :=
        if includes availableLangs s.language then s.language else availableLangs.head?
      ⟨s.problem, initialLang, newCache cs availableLangs⟩

/-- The dependency of line 36: `problem?.slug`. -/
def slugDep (problem : Option Problem) : Option String :=
  problem.map Problem.slug

/-- The parent passes a new `problem` prop (an object or `null`).  The
component re-renders with it, and the effect of lines 21-36 runs only when
`problem?.slug` differs from its value at the previous render. -/
def onProblemSelected (p : Option Problem) (s : State) : State :=
  if slugDep p = slugDep s.problem then
    ⟨p, s.language, s.codeCache⟩
  else
    problemSwitchEffect ⟨p, s.language, s.codeCache⟩

/-- Lines 39-41: `setLanguage(e.target.value)`. -/
def handleLanguageChange (value : String) (s : State) : State :=
  ⟨s.problem, some value, s.codeCache⟩

/-- Lines 44-49: `setCodeCache(prev => (..prev, [language]: newCode ?? ''))`;
the editor reports a string or `undefined`. -/
def handleCodeChange (newCode : Option String) (s : State) : State :=
  ⟨s.problem, s.language, Object.set s.codeCache (propKey s.language) (newCode.getD "")⟩

/-- Line 177: the editor's `value`, `codeCache[language] || ''`. -/
def read (s : State) : String :=
  match Object.get s.codeCache (propKey s.language) with
  | some v => if v = "" then "" else v
  | none => ""

/-- What the component returns: the placeholder of lines 85-91 when
`problem` is `null`, otherwise the view of lines 93-193 with the language
select (its value and options) and the editor (its value). -/
inductive View where
  | placeholder
  | workspace (selectValue : Option String) (options : List String) (editorValue : String)
deriving DecidableEq, Repr

/-- Lines 85-193. -/
def render (s : State) : View :=
  match s.problem with
  | none => View.placeholder
  | some _ => View.workspace s.language (languages s.problem) (read s)

/-- A change event of the language select carrying `lang`.  The select, and
with it `handleLanguageChange`, exists only in the workspace view. -/
def setActiveLanguage (lang : String) (s : State) : State :=
  match render s with
  | View.placeholder => s
  | View.workspace _ _ _ => handleLanguageChange lang s

/-- A change event of the editor carrying `newCode`.  The editor, and with it
`handleCodeChange`, exists only in the workspace view. -/
def write (newCode : Option String) (s : State) : State :=
  match render s with
  | View.placeholder => s
  | View.workspace _ _ _ => handleCodeChange newCode s

/-- The ordered language keys offered for the current problem. -/
def availableLanguages (s : State) : List String :=
  languages s.problem

/-- The events a workspace session receives. -/
inductive Event where
  | problemSelected (p : Option Problem)
  | languageChange (lang : String)
  | codeChange (newCode : Option String)
deriving DecidableEq, Repr

/-- One event applied to the session state. -/
def step (s : State) (e : Event) : State :=
  match e with
  | Event.problemSelected p => onProblemSelected p s
  | Event.languageChange lang => setActiveLanguage lang s
  | Event.codeChange newCode => write newCode s

/-- A sequence of events applied from left to right. -/
def run (s : State) (es : List Event) : State :=
  es.foldl step s

/-- An event that is a language switch or an edit, not a problem selection. -/
def Event.isEdit (e : Event) : Bool :=
  match e with
  | Event.problemSelected _ => false
  | Event.languageChange _ => true
  | Event.codeChange _ => true

/-- The problem of the end-to-end example: two boilerplate languages. -/
def exampleP : Problem :=
  ⟨"two-sum", some [("javascript", "function f()\x7b\x7d"), ("python", "def f(): pass")]⟩

/-- Problem A of the language-fallback example, languages js and python. -/
def problemA : Problem :=
  ⟨"a", some [("js", "function g()\x7b\x7d"), ("python", "def g(): pass")]⟩

/-- Problem B of the language-fallback example, languages python and java. -/
def problemB : Problem :=
  ⟨"b", some [("python", "def g(): pass"), ("java", "class G")]⟩

/-- The key-set property: the keys of `codeCache` and the keys of the current
problem's `code_snippets` (none when there is no problem or no mapping) are
the same set. -/
def KeySetInvariant (s : State) : Prop :=
  (∀ k ∈ Object.keys s.codeCache, k ∈ languages s.problem)
    ∧ (∀ k ∈ languages s.problem, k ∈ Object.keys s.codeCache)

/-- The membership property: when a problem is selected, `language` is a key
of `codeCache`. -/
def ActiveLanguageInvariant (s : State) : Prop :=
  s.problem.isSome = true → includes (Object.keys s.codeCache) s.language = true

/-- A language switch that picks a key of the current cache; other events are
unconstrained. -/
def languageChoiceValid (s : State) (e : Event) : Prop :=
  match e with
  | Event.languageChange lang => lang ∈ Object.keys s.codeCache
  | _ => True

/-- Event admitted by the key-set theorem: a language switch picks a key of
the cache, a selected problem's mapping (if it has one) has at least one
language, and a problem object carrying the slug of the current selection
carries the same `code_snippets`. -/
def Admissible (s : State) (e : Event) : Prop :=
  match e with
  | Event.problemSelected (some P) =>
    P.code_snippets ≠ some []
      ∧ (slugDep s.problem = some P.slug →
          s.problem.bind Problem.code_snippets = P.code_snippets)
  | _ => languageChoiceValid s e

/-- Event admitted by the membership theorem: a language switch picks a key
of the cache and every selected problem has a mapping with at least one
language. -/
def AdmissibleWithLanguages (s : State) (e : Event) : Prop :=
  match e with
  | Event.problemSelected (some P) =>
    P.code_snippets ≠ none ∧ P.code_snippets ≠ some []
  | _ => languageChoiceValid s e

/-- Every event of the sequence is admitted in the state it is applied to. -/
def AdmissibleFrom (adm : State → Event → Prop) (s : State) (es : List Event) : Prop :=
  match es with
  | [] => True
  | e :: rest => adm s e ∧ AdmissibleFrom adm (step s e) rest

instance languageChoiceValid.decidable (s : State) (e : Event) :
    Decidable (languageChoiceValid s e) :=
  match e with
  | Event.languageChange lang => inferInstanceAs (Decidable (lang ∈ Object.keys s.codeCache))
  | Event.problemSelected _ => inferInstanceAs (Decidable True)
  | Event.codeChange _ => inferInstanceAs (Decidable True)

instance Admissible.decidable (s : State) (e : Event) : Decidable (Admissible s e) :=
  match e with
  | Event.problemSelected (some P) =>
    inferInstanceAs (Decidable (P.code_snippets ≠ some []
      ∧ (slugDep s.problem = some P.slug →
          s.problem.bind Problem.code_snippets = P.code_snippets)))
  | Event.problemSelected none =>
    inferInstanceAs (Decidable (languageChoiceValid s (Event.problemSelected none)))
  | Event.languageChange lang =>
    inferInstanceAs (Decidable (languageChoiceValid s (Event.languageChange lang)))
  | Event.codeChange c =>
    inferInstanceAs (Decidable (languageChoiceValid s (Event.codeChange c)))

instance AdmissibleWithLanguages.decidable (s : State) (e : Event) :
    Decidable (AdmissibleWithLanguages s e) :=
  match e with
  | Event.problemSelected (some P) =>
    inferInstanceAs (Decidable (P.code_snippets ≠ none ∧ P.code_snippets ≠ some []))
  | Event.problemSelected none =>
    inferInstanceAs (Decidable (languageChoiceValid s (Event.problemSelected none)))
  | Event.languageChange lang =>
    inferInstanceAs (Decidable (languageChoiceValid s (Event.languageChange lang)))
  | Event.codeChange c =>
    inferInstanceAs (Decidable (languageChoiceValid s (Event.codeChange c)))

instance AdmissibleFrom.decidable (adm : State → Event → Prop)
    [inst : ∀ s e, Decidable (adm s e)] (s : State) (es : List Event) :
    Decidable (AdmissibleFrom adm s es) :=
  match es with
  | [] => inferInstanceAs (Decidable True)
  | e :: rest =>
    have : Decidable (AdmissibleFrom adm (step s e) rest) :=
      AdmissibleFrom.decidable adm (step s e) rest
    inferInstanceAs (Decidable (adm s e ∧ AdmissibleFrom adm (step s e) rest))

/-- The inductive strengthening of the key-set property: when the selected
problem has a mapping, the cache has exactly its keys and the active language
is one of them. -/
def MappingInvariant (s : State) : Prop :=
  ∀ P cs, s.problem = some P → P.code_snippets = some cs →
    (∀ k, k ∈ Object.keys s.codeCache ↔ k ∈ Object.keys cs)
      ∧ includes (Object.keys cs) s.language = true

/-! ## Split layout and editor re-layout (lines 11, 51-83) -/

/-- A JavaScript number as the drag computation sees it: a finite value, an
infinity, or NaN.  Finite arithmetic is exact (rounding is not modelled) and
there is a single zero. -/
inductive JSNumber where
  | finite (q : ℚ)
  | posInf
  | negInf
  | nan
deriving DecidableEq

/-- Division `a / b` of two finite numbers: a zero divisor gives NaN for a
zero dividend and otherwise the infinity with the sign of the dividend (the
divisor, a width, is never a negative zero). -/
def JSNumber.div (a b : ℚ) : JSNumber :=
  if b = 0 then
    if a = 0 then JSNumber.nan
    else if 0 < a then JSNumber.posInf
    else JSNumber.negInf
  else JSNumber.finite (a / b)

/-- Product `x * c` with a finite number `c`. -/
def JSNumber.mul (x : JSNumber) (c : ℚ) : JSNumber :=
  match x with
  | JSNumber.finite q => JSNumber.finite (q * c)
  | JSNumber.posInf =>
    if c = 0 then JSNumber.nan else if 0 < c then JSNumber.posInf else JSNumber.negInf
  | JSNumber.negInf =>
    if c = 0 then JSNumber.nan else if 0 < c then JSNumber.negInf else JSNumber.posInf
  | JSNumber.nan => JSNumber.nan

/-- The call `Math.max(a, x)` with a finite `a`: NaN if `x` is NaN. -/
def Math.max (a : ℚ) (x : JSNumber) : JSNumber :=
  match x with
  | JSNumber.finite q => JSNumber.finite (Max.max a q)
  | JSNumber.posInf => JSNumber.posInf
  | JSNumber.negInf => JSNumber.finite a
  | JSNumber.nan => JSNumber.nan

/-- The call `Math.min(a, x)` with a finite `a`: NaN if `x` is NaN. -/
def Math.min (a : ℚ) (x : JSNumber) : JSNumber :=
  match x with
  | JSNumber.finite q => JSNumber.finite (Min.min a q)
  | JSNumber.posInf => JSNumber.finite a
  | JSNumber.negInf => JSNumber.negInf
  | JSNumber.nan => JSNumber.nan

/-- The fields of `container.getBoundingClientRect()` read at line 55. -/
structure DOMRect where
  left : ℚ
  width : ℚ
deriving DecidableEq

/-- Line 11: `useState(50)`. -/
def descriptionWidthInit : JSNumber :=
  JSNumber.finite 50

/-- Lines 57-62: the value `onMouseMove` passes to `setDescriptionWidth`, for
the `rect` captured at pointer-down and the `clientX` of the move event. -/
def onMouseMove (rect : DOMRect) (clientX : ℚ) : JSNumber :=
  let offsetX := clientX - rect.left
  let next := JSNumber.mul (JSNumber.div offsetX rect.width) 100
  Math.min 75 (Math.max 25 next)

/-- A split fraction that is a finite number `f` with both pane shares, `f`
and `100 - f`, in the closed range from 25 to 75. -/
def InRange (x : JSNumber) : Prop :=
  match x with
  | JSNumber.finite f => (25 ≤ f ∧ f ≤ 75) ∧ (25 ≤ 100 - f ∧ 100 - f ≤ 75)
  | _ => False

/-- The successive values of `descriptionWidth`, from `w` on, under a sequence
of pointer-moves; each move comes with the `rect` its gesture captured at
pointer-down. -/
def splitTrajectory (w : JSNumber) (moves : List (DOMRect × ℚ)) : List JSNumber :=
  match moves with
  | [] => [w]
  | m :: rest => w :: splitTrajectory (onMouseMove m.1 m.2) rest

/-- The session state together with what the layout effect of lines 79-83
reads and does: `descriptionWidth`, the `layoutSignal` prop, whether
`editorRef.current` is set, and the number of `layout()` calls made on the
editor so far.  The editor's `layout()` is a method of the external editor
component; it re-measures the editor and calls no state setter. -/
structure LayoutState where
  session : State
  descriptionWidth : JSNumber
  layoutSignal : Nat
  editorRef : Bool
  layoutCalls : Nat
deriving DecidableEq

/-- Lines 80-82: the body of the layout effect. -/
def layoutEffect (s : LayoutState) : LayoutState :=
  if s.editorRef then
    ⟨s.session, s.descriptionWidth, s.layoutSignal, s.editorRef, s.layoutCalls + 1⟩
  else s

/-- Lines 73-77: `handleEditorMount` stores the editor in `editorRef` and
schedules one `layout()` call, counted here when it is scheduled. -/
def handleEditorMount (s : LayoutState) : LayoutState :=
  ⟨s.session, s.descriptionWidth, s.layoutSignal, true, s.layoutCalls + 1⟩

/-- The commit of `setDescriptionWidth(next)`: a value equal to the current
one leaves the dependency list of line 83 unchanged and nothing runs. -/
def setDescriptionWidth (next : JSNumber) (s : LayoutState) : LayoutState :=
  if next = s.descriptionWidth then s
  else layoutEffect ⟨s.session, next, s.layoutSignal, s.editorRef, s.layoutCalls⟩

/-- A pointer-move of a drag gesture, line 61. -/
def pointerMove (rect : DOMRect) (clientX : ℚ) (s : LayoutState) : LayoutState :=
  setDescriptionWidth (onMouseMove rect clientX) s

/-- The parent passes a `layoutSignal` prop; the effect runs when it differs
from the previous one. -/
def onLayoutSignal (signal : Nat) (s : LayoutState) : LayoutState :=
  if signal = s.layoutSignal then s
  else layoutEffect ⟨s.session, s.descriptionWidth, signal, s.editorRef, s.layoutCalls⟩

end Workspace

/-! ## Catalog filter (`ProblemDashboard.jsx`, lines 74-84) -/

namespace ProblemDashboard

/-- The fields of a problem summary the filter reads; each may be missing. -/
structure ProblemSummary where
  title : Option String
  slug : Option String
  topics : Option (List String)
deriving DecidableEq, Repr

/-- The call `s.includes(q)` on strings: `q` occurs in `s` as a contiguous
run of characters. -/
def includes (s q : String) : Bool :=
  decide (q.data <:+: s.data)

/-- Line 77: `!selectedTopic || (p.topics || []).includes(selectedTopic)`. -/
def matchesTopic (selectedTopic : Option String) (p : ProblemSummary) : Bool :=
  match selectedTopic with
  | none => true
  | some t => t == "" || (p.topics.getD []).contains t

/-- The operand `v && v.toLowerCase().includes(q)` of lines 80 and 81.  The
built-in `String.prototype.toLowerCase` is the parameter `toLowerCase`. -/
def fieldMatches (toLowerCase : String → String) (v : Option String) (q : String) : Bool :=
  match v with
  | none => false
  | some s => s != "" && includes (toLowerCase s) q

/-- Lines 78-81: `!q || (title && ..) || (slug && ..)`. -/
def matchesQuery (toLowerCase : String → String) (q : String) (p : ProblemSummary) : Bool :=
  q == "" || fieldMatches toLowerCase p.title q || fieldMatches toLowerCase p.slug q

/-- Lines 74-84: the `filteredProblems` memo.  The built-ins
`String.prototype.trim` and `String.prototype.toLowerCase` are the parameters
`trim` and `toLowerCase`. -/
def filteredProblems (trim toLowerCase : String → String) (problems : List ProblemSummary)
    (selectedTopic : Option String) (searchQuery : String) : List ProblemSummary :=
  let q := toLowerCase (trim searchQuery)
  problems.filter (fun p => matchesTopic selectedTopic p && matchesQuery toLowerCase q p)

/-- No topic is selected: the topic is `null` or the empty string, the two
values for which the dashboard highlights its "All Topics" button. -/
def NoTopicSelected (selectedTopic : Option String) : Prop :=
  selectedTopic = none ∨ selectedTopic = some ""

/-- The membership condition in the words of the specification: no topic is
selected or the selected topic is among the problem's topics, and the
trimmed, lower-cased query is empty or is a substring of the lower-cased
title or of the lower-cased slug. -/
def SpecKeeps (trim toLowerCase : String → String) (selectedTopic : Option String)
    (searchQuery : String) (p : ProblemSummary) : Prop :=
  (NoTopicSelected selectedTopic
      ∨ ∃ t, selectedTopic = some t ∧ t ∈ p.topics.getD [])
    ∧ (toLowerCase (trim searchQuery) = ""
      ∨ (∃ title, p.title = some title
          ∧ (toLowerCase (trim searchQuery)).data <:+: (toLowerCase title).data)
      ∨ (∃ slug, p.slug = some slug
          ∧ (toLowerCase (trim searchQuery)).data <:+: (toLowerCase slug).data))

/-- The value of `s.toLowerCase()` for a string `s` of ASCII characters: the
letters A to Z are lowered, every other character is kept.  Used only to
evaluate the filter on ASCII inputs. -/
def asciiToLowerCase (s : String) : String :=
  ⟨s.data.map Char.toLower⟩

/-- The value of `s.trim()` for a string `s` of ASCII characters: leading and
trailing spaces, tabs, carriage returns and line feeds are removed.  Used
only to evaluate the filter on ASCII inputs. -/
def asciiTrim (s : String) : String :=
  ⟨((s.data.dropWhile Char.isWhitespace).reverse.dropWhile Char.isWhitespace).reverse⟩

/-- A three-row catalog used to evaluate the filter. -/
def sampleCatalog : List ProblemSummary :=
  [⟨some "Two Sum", some "two-sum", some ["array"]⟩,
   ⟨some "Add Binary", some "add-binary", none⟩,
   ⟨some "3Sum Closest", some "3sum-closest", some ["array", "sorting"]⟩]

end ProblemDashboard

/-! ## Code execution route (`server.js`, lines 235-262) -/

namespace Server

/-- An entry of `languageMap`. -/
structure JDoodleLang where
  language : String
  versionIndex : String
deriving DecidableEq, Repr

/-- Lines 237-243: the own properties of the `languageMap` object literal. -/
def languageMap : List (String × JDoodleLang) :=
  [("javascript", ⟨"nodejs", "4"⟩),
   ("python3", ⟨"python3", "4"⟩),
   ("python", ⟨"python3", "4"⟩),
   ("cpp", ⟨"cpp17", "1"⟩),
   ("java", ⟨"java", "4"⟩)]

/-- The property names every object literal inherits from
`Object.prototype`; each denotes a function or an object, hence a truthy
value without a `language` or `versionIndex` property. -/
def objectPrototypeKeys : List String :=
  ["constructor", "__proto__", "hasOwnProperty", "isPrototypeOf", "propertyIsEnumerable",
   "toLocaleString", "toString", "valueOf", "__defineGetter__", "__defineSetter__",
   "__lookupGetter__", "__lookupSetter__"]

/-- The result of the property read `languageMap[key]`. -/
inductive Lookup where
  | own (entry : JDoodleLang)
  | inherited
  | undefined
deriving DecidableEq, Repr

/-- Line 244: `languageMap[language]`, an own property first and the
prototype chain after it. -/
def lookup (key : String) : Lookup :=
  match languageMap.lookup key with
  | some entry => Lookup.own entry
  | none => if key ∈ objectPrototypeKeys then Lookup.inherited else Lookup.undefined

/-- What the handler does with a request: answer with a status and an error,
or send `language` and `versionIndex` (a string or `undefined`) to the
execution service. -/
inductive Outcome where
  | respond (status : Nat) (error : String)
  | execute (language : Option String) (versionIndex : Option String)
deriving DecidableEq, Repr

/-- Lines 235-255 for a request body whose `language` is a string or
missing: a falsy lookup answers 400; otherwise the request to the execution
service is built from the `language` and `versionIndex` properties of the
value found. -/
def runCode (language : Option String) : Outcome :=
  match lookup (Workspace.propKey language) with
  | Lookup.undefined => Outcome.respond 400 "Language unsupported"
  | Lookup.own entry => Outcome.execute (some entry.language) (some entry.versionIndex)
  | Lookup.inherited => Outcome.execute none none

end Server

namespace Workspace


/-! ## Properties of the object model -/

theorem Object.get_set_same (o : JSObject) (k v : String) :
    Object.get (Object.set o k v) k = some v := by
  induction o with
  | nil => simp [Object.set, Object.get]
  | cons e rest ih =>
    obtain ⟨k', v'⟩ := e
    by_cases h : k' = k
    · simp [Object.set, Object.get, h]
    · simp [Object.set, Object.get, h, ih]

theorem Object.get_set_ne (o : JSObject) (k v j : String) (hj : j ≠ k) :
    Object.get (Object.set o k v) j = Object.get o j := by
  induction o with
  | nil => simp [Object.set, Object.get, Ne.symm hj]
  | cons e rest ih =>
    obtain ⟨k', v'⟩ := e
    by_cases h : k' = k
    · subst h
      simp [Object.set, Object.get, Ne.symm hj]
    · by_cases h2 : k' = j
      · subst h2
        simp [Object.set, Object.get, h]
      · simp [Object.set, Object.get, h, h2, ih]

theorem Object.mem_keys_set (o : JSObject) (k v j : String) :
    j ∈ Object.keys (Object.set o k v) ↔ j = k ∨ j ∈ Object.keys o := by
  induction o with
  | nil => simp [Object.set, Object.keys]
  | cons e rest ih =>
    obtain ⟨k', v'⟩ := e
    by_cases h : k' = k
    · subst h
      simp [Object.set, Object.keys]
    · have ih2 : j ∈ List.map Prod.fst (Object.set rest k v) ↔ j = k ∨ j ∈ List.map Prod.fst rest := ih
      simp only [Object.set, h, if_false, Object.keys, List.map_cons, List.mem_cons, ih2]
      tauto

theorem Object.set_of_not_mem (o : JSObject) (k v : String) (hk : k ∉ Object.keys o) :
    Object.set o k v = o ++ [(k, v)] := by
  induction o with
  | nil => simp [Object.set]
  | cons e rest ih =>
    obtain ⟨k', v'⟩ := e
    simp only [Object.keys, List.map_cons, List.mem_cons, not_or] at hk
    have h : ¬ k' = k := fun h => hk.1 h.symm
    simp [Object.set, h, ih hk.2]

theorem Object.get_append_of_not_mem (o₁ o₂ : JSObject) (k : String)
    (hk : k ∉ Object.keys o₁) : Object.get (o₁ ++ o₂) k = Object.get o₂ k := by
  induction o₁ with
  | nil => simp
  | cons e rest ih =>
    obtain ⟨k', v'⟩ := e
    simp only [Object.keys, List.map_cons, List.mem_cons, not_or] at hk
    have h : ¬ k' = k := fun h => hk.1 h.symm
    simp [Object.get, h, ih hk.2]

theorem Object.get_isSome_of_mem (o : JSObject) (k : String) (hk : k ∈ Object.keys o) :
    ∃ v, Object.get o k = some v := by
  induction o with
  | nil => simp [Object.keys] at hk
  | cons e rest ih =>
    obtain ⟨k', v'⟩ := e
    by_cases h : k' = k
    · exact ⟨v', by simp [Object.get, h]⟩
    · simp only [Object.keys, List.map_cons, List.mem_cons] at hk
      rcases hk with hk | hk
      · exact absurd hk.symm h
      · obtain ⟨v, hv⟩ := ih hk
        exact ⟨v, by simp [Object.get, h, hv]⟩


/-! ## The cache built by the problem-switch effect -/

/-- The step function folded by `newCache`. -/
theorem newCache_foldl_append (cs pre suf : JSObject) (hcs : cs = pre ++ suf)
    (hnodup : (Object.keys cs).Nodup) :
    List.foldl
      (fun acc lang =>
        match Object.get cs lang with
        | some v => Object.set acc lang v
        | none => acc)
      pre (Object.keys suf) = cs := by
  induction suf generalizing pre with
  | nil => simp [Object.keys, hcs]
  | cons e rest ih =>
    obtain ⟨k, v⟩ := e
    have hsplit : Object.keys cs = Object.keys pre ++ k :: Object.keys rest := by
      simp [hcs, Object.keys]
    have hk : k ∉ Object.keys pre := by
      rw [hsplit] at hnodup
      have := List.disjoint_of_nodup_append hnodup
      intro hmem
      exact this hmem (List.mem_cons_self _ _)
    have hget : Object.get cs k = some v := by
      rw [hcs, Object.get_append_of_not_mem _ _ _ hk]
      simp [Object.get]
    have hcs2 : cs = (pre ++ [(k, v)]) ++ rest := by simp [hcs]
    have := ih (pre ++ [(k, v)]) hcs2
    simp only [Object.keys, List.map_cons, List.foldl_cons, hget]
    rw [Object.set_of_not_mem _ _ _ hk]
    exact this

theorem newCache_eq (cs : JSObject) (hnodup : (Object.keys cs).Nodup) :
    newCache cs (Object.keys cs) = cs :=
  newCache_foldl_append cs [] cs rfl hnodup

theorem mem_keys_newCache_foldl (cs : JSObject) (ks : List String) (acc : JSObject)
    (hks : ∀ k ∈ ks, k ∈ Object.keys cs) (j : String) :
    j ∈ Object.keys
        (List.foldl
          (fun acc lang =>
            match Object.get cs lang with
            | some v => Object.set acc lang v
            | none => acc)
          acc ks) ↔ j ∈ Object.keys acc ∨ j ∈ ks := by
  induction ks generalizing acc with
  | nil => simp
  | cons k rest ih =>
    obtain ⟨v, hv⟩ := Object.get_isSome_of_mem cs k (hks k (List.mem_cons_self _ _))
    have hrest : ∀ k ∈ rest, k ∈ Object.keys cs := fun x hx => hks x (List.mem_cons_of_mem _ hx)
    simp only [List.foldl_cons, hv]
    rw [ih (Object.set acc k v) hrest, Object.mem_keys_set]
    simp only [List.mem_cons]
    tauto

theorem mem_keys_newCache (cs : JSObject) (j : String) :
    j ∈ Object.keys (newCache cs (Object.keys cs)) ↔ j ∈ Object.keys cs := by
  unfold newCache
  rw [mem_keys_newCache_foldl cs (Object.keys cs) [] (fun _ h => h) j]
  simp [Object.keys]

/-! ## Basic facts about the operations -/

theorem problemSwitchEffect_problem (s : State) : (problemSwitchEffect s).problem = s.problem := by
  unfold problemSwitchEffect
  split
  · rfl
  · split <;> simp_all

theorem onProblemSelected_problem (p : Option Problem) (s : State) :
    (onProblemSelected p s).problem = p := by
  unfold onProblemSelected
  split
  · rfl
  · rw [problemSwitchEffect_problem]

theorem setActiveLanguage_problem (lang : String) (s : State) :
    (setActiveLanguage lang s).problem = s.problem := by
  obtain ⟨p, l, c⟩ := s
  cases p <;> rfl

theorem write_problem (newCode : Option String) (s : State) :
    (write newCode s).problem = s.problem := by
  obtain ⟨p, l, c⟩ := s
  cases p <;> rfl

theorem run_edits_problem (es : List Event) (s : State) (hes : ∀ e ∈ es, Event.isEdit e = true) :
    (run s es).problem = s.problem := by
  induction es generalizing s with
  | nil => rfl
  | cons e rest ih =>
    have hrest : ∀ x ∈ rest, Event.isEdit x = true := fun x hx => hes x (List.mem_cons_of_mem _ hx)
    have he := hes e (List.mem_cons_self _ _)
    show (run (step s e) rest).problem = s.problem
    rw [ih (step s e) hrest]
    cases e with
    | problemSelected p => simp [Event.isEdit] at he
    | languageChange lang => exact setActiveLanguage_problem lang s
    | codeChange newCode => exact write_problem newCode s

/-- The state in which the slug changes: the effect ran on the new prop. -/
theorem onProblemSelected_of_slug_ne (P : Problem) (s : State)
    (hslug : slugDep s.problem ≠ some P.slug) :
    onProblemSelected (some P) s = problemSwitchEffect ⟨some P, s.language, s.codeCache⟩ := by
  unfold onProblemSelected
  have : ¬ slugDep (some P) = slugDep s.problem := by
    intro h
    exact hslug (by rw [← h]; rfl)
  simp [this]

theorem onProblemSelected_of_slug_eq (p : Option Problem) (s : State)
    (hslug : slugDep p = slugDep s.problem) :
    onProblemSelected p s = ⟨p, s.language, s.codeCache⟩ := by
  unfold onProblemSelected
  rw [if_pos hslug]

theorem problemSwitchEffect_of_snippets (P : Problem) (cs : JSObject) (l : Option String)
    (c : JSObject) (hcs : P.code_snippets = some cs) :
    problemSwitchEffect ⟨some P, l, c⟩ =
      ⟨some P, if includes (Object.keys cs) l then l else (Object.keys cs).head?,
        newCache cs (Object.keys cs)⟩ := by
  simp [problemSwitchEffect, hcs]


theorem setActiveLanguage_of_some (lang : String) (s : State) (P : Problem)
    (hP : s.problem = some P) : setActiveLanguage lang s = ⟨s.problem, some lang, s.codeCache⟩ := by
  obtain ⟨p, l, c⟩ := s
  cases p with
  | none => simp at hP
  | some q => rfl

theorem write_of_some (newCode : Option String) (s : State) (P : Problem)
    (hP : s.problem = some P) :
    write newCode s =
      ⟨s.problem, s.language, Object.set s.codeCache (propKey s.language) (newCode.getD "")⟩ := by
  obtain ⟨p, l, c⟩ := s
  cases p with
  | none => simp at hP
  | some q => rfl

theorem write_of_none (newCode : Option String) (s : State) (hP : s.problem = none) :
    write newCode s = s := by
  obtain ⟨p, l, c⟩ := s
  cases p with
  | none => rfl
  | some q => simp at hP

theorem setActiveLanguage_of_none (lang : String) (s : State) (hP : s.problem = none) :
    setActiveLanguage lang s = s := by
  obtain ⟨p, l, c⟩ := s
  cases p with
  | none => rfl
  | some q => simp at hP

/-! ## Claims about problem selection -/

/-- C1. Idempotent re-selection: in the state reached by `onProblemSelected(P)`
followed by any sequence of `write` / `setActiveLanguage` calls, selecting a
problem object `P'` with the same slug (whatever its `code_snippets`) leaves
`codeCache` and `language` exactly as they were, so `read()` still returns the
in-progress draft. -/
theorem reselect_same_slug_keeps_drafts (s0 : State) (P P' : Problem) (es : List Event)
    (hes : ∀ e ∈ es, Event.isEdit e = true) (hslug : P'.slug = P.slug) :
    (onProblemSelected (some P') (run (onProblemSelected (some P) s0) es)).codeCache
        = (run (onProblemSelected (some P) s0) es).codeCache
      ∧ (onProblemSelected (some P') (run (onProblemSelected (some P) s0) es)).language
        = (run (onProblemSelected (some P) s0) es).language
      ∧ read (onProblemSelected (some P') (run (onProblemSelected (some P) s0) es))
        = read (run (onProblemSelected (some P) s0) es) := by
  have hp : (run (onProblemSelected (some P) s0) es).problem = some P := by
    rw [run_edits_problem es _ hes, onProblemSelected_problem]
  have hdep : slugDep (some P') = slugDep (run (onProblemSelected (some P) s0) es).problem := by
    rw [hp]
    simp [slugDep, hslug]
  have hstate : onProblemSelected (some P') (run (onProblemSelected (some P) s0) es)
      = ⟨some P', (run (onProblemSelected (some P) s0) es).language,
          (run (onProblemSelected (some P) s0) es).codeCache⟩ :=
    onProblemSelected_of_slug_eq _ _ hdep
  rw [hstate]
  exact ⟨rfl, rfl, rfl⟩

/-- Witness for C1: a python draft survives the re-selection of the same slug
carried by a different object. -/
theorem reselect_same_slug_keeps_drafts_witness :
    read (onProblemSelected (some ⟨"two-sum", some [("javascript", "changed")]⟩)
      (run (onProblemSelected (some exampleP) init)
        [Event.languageChange "python", Event.codeChange (some "def f(): return 1")]))
      = "def f(): return 1" :=
  (reselect_same_slug_keeps_drafts init exampleP ⟨"two-sum", some [("javascript", "changed")]⟩
    [Event.languageChange "python", Event.codeChange (some "def f(): return 1")]
    (by decide) rfl).2.2.trans (by decide)

/-- C2. Fresh cache on problem change: when `P` has a `code_snippets` mapping
(a JavaScript object, so with pairwise distinct keys) and its slug differs
from the slug of the current selection, then after `onProblemSelected(P)`,
from any prior state, `codeCache` equals `P.code_snippets` entry for entry,
`availableLanguages()` is the key list of `P.code_snippets` in order, and
`read()` is `P.code_snippets[language]`, the empty string when `P` has no
language. -/
theorem fresh_cache_on_problem_change (s : State) (P : Problem) (cs : JSObject)
    (hcs : P.code_snippets = some cs) (hnodup : (Object.keys cs).Nodup)
    (hslug : slugDep s.problem ≠ some P.slug) :
    (onProblemSelected (some P) s).codeCache = cs
      ∧ availableLanguages (onProblemSelected (some P) s) = Object.keys cs
      ∧ read (onProblemSelected (some P) s)
          = (Object.get cs (propKey (onProblemSelected (some P) s).language)).getD ""
      ∧ (cs = [] → read (onProblemSelected (some P) s) = "") := by
  rw [onProblemSelected_of_slug_ne P s hslug, problemSwitchEffect_of_snippets P cs _ _ hcs,
    newCache_eq cs hnodup]
  refine ⟨rfl, ?_, ?_, ?_⟩
  · simp [availableLanguages, languages, hcs]
  · simp only [read]
    split
    · next v hv =>
      rw [hv]
      by_cases h : v = "" <;> simp [h]
    · next hv => rw [hv]; rfl
  · intro hnil
    subst hnil
    simp [read, Object.get]

/-- Witness for C2: after a draft for problem A, selecting problem B shows B's
boilerplate. -/
theorem fresh_cache_on_problem_change_witness :
    (onProblemSelected (some problemB)
        (run init [Event.problemSelected (some problemA), Event.codeChange (some "x")])).codeCache
      = [("python", "def g(): pass"), ("java", "class G")] :=
  (fresh_cache_on_problem_change
    (run init [Event.problemSelected (some problemA), Event.codeChange (some "x")])
    problemB [("python", "def g(): pass"), ("java", "class G")] rfl (by decide) (by decide)).1

/-- C3. Active-language recomputation: when `P` has at least one boilerplate
language and its slug differs from the current one, then after
`onProblemSelected(P)` the language is the previous language `a` if `a` is a
key of `P.code_snippets`, and the first key otherwise; either way it is a key
of `P.code_snippets`. -/
theorem active_language_recomputed (s : State) (P : Problem) (cs : JSObject) (a : Option String)
    (hcs : P.code_snippets = some cs) (hne : cs ≠ [])
    (hslug : slugDep s.problem ≠ some P.slug) (ha : s.language = a) :
    (a ∈ (Object.keys cs).map some → (onProblemSelected (some P) s).language = a)
      ∧ (a ∉ (Object.keys cs).map some →
          (onProblemSelected (some P) s).language = (Object.keys cs).head?)
      ∧ ∃ l, (onProblemSelected (some P) s).language = some l ∧ l ∈ Object.keys cs := by
  rw [onProblemSelected_of_slug_ne P s hslug, problemSwitchEffect_of_snippets P cs _ _ hcs]
  subst ha
  have hinc : includes (Object.keys cs) s.language = true ↔
      s.language ∈ (Object.keys cs).map some := by
    cases hl : s.language with
    | none => simp [includes]
    | some l => simp [includes]
  refine ⟨fun h => ?_, fun h => ?_, ?_⟩
  · simp [hinc.mpr h]
  · have : ¬ includes (Object.keys cs) s.language = true := fun h2 => h (hinc.mp h2)
    simp [this]
  · by_cases h : includes (Object.keys cs) s.language = true
    · simp only [h, if_true]
      have := hinc.mp h
      simp only [List.mem_map] at this
      obtain ⟨l, hl, hl2⟩ := this
      exact ⟨l, hl2.symm, hl⟩
    · simp only [h]
      cases cs with
      | nil => exact absurd rfl hne
      | cons e rest => exact ⟨e.1, by simp [Object.keys], by simp [Object.keys]⟩

/-- Witness for C3: A = (js, python) with js active, then B = (python, java)
gives python. -/
theorem active_language_recomputed_witness :
    (onProblemSelected (some problemB)
        (onProblemSelected (some problemA) ⟨none, some "js", []⟩)).language = some "python" :=
  (active_language_recomputed (onProblemSelected (some problemA) ⟨none, some "js", []⟩)
    problemB [("python", "def g(): pass"), ("java", "class G")] (some "js")
    rfl (by decide) (by decide) (by decide)).2.1 (by decide)


/-! ## Claims about language switches and edits -/

/-- C4. Edits persist across language switches: with a problem selected and
`l1` the active language, for every other language `l2` (in particular every
available one distinct from `l1`) and every text `x`, the sequence
`write(x)`, `setActiveLanguage(l2)`, `setActiveLanguage(l1)`, `read()` returns
`x`. -/
theorem edits_persist_across_language_switch (s : State) (P : Problem)
    (l1 l2 x : String) (hP : s.problem = some P) (hact : s.language = some l1) :
    read (setActiveLanguage l1 (setActiveLanguage l2 (write (some x) s))) = x := by
  have hw : (write (some x) s).problem = some P := by rw [write_problem, hP]
  have hs2 : (setActiveLanguage l2 (write (some x) s)).problem = some P := by
    rw [setActiveLanguage_problem, hw]
  rw [setActiveLanguage_of_some l1 _ P hs2, setActiveLanguage_of_some l2 _ P hw,
    write_of_some (some x) s P hP, hact]
  simp only [read, propKey, Object.get_set_same, Option.getD_some]
  by_cases hx : x = "" <;> simp [hx]

/-- Witness for C4 on the end-to-end example problem. -/
theorem edits_persist_across_language_switch_witness :
    read (setActiveLanguage "javascript" (setActiveLanguage "python"
      (write (some "x") (onProblemSelected (some exampleP) init)))) = "x" :=
  edits_persist_across_language_switch (onProblemSelected (some exampleP) init) exampleP
    "javascript" "python" "x" (by decide) (by decide)

/-- C5. The operation `write` touches only the active entry: with active
language `l`, after `write(t)` every other key of the cache reads exactly as
before (absent keys stay absent), the active language is still `l`, and, when
a problem is selected (otherwise `write` is a no-op), the cache maps `l` to
`t`. -/
theorem write_touches_only_active_entry (s : State) (l t : String)
    (hact : s.language = some l) :
    (s.problem.isSome = true → Object.get (write (some t) s).codeCache l = some t)
      ∧ (∀ k, k ≠ l → Object.get (write (some t) s).codeCache k = Object.get s.codeCache k)
      ∧ (write (some t) s).language = some l := by
  cases hp : s.problem with
  | none =>
    rw [write_of_none (some t) s hp]
    exact ⟨fun h => by simp at h, fun _ _ => rfl, hact⟩
  | some P =>
    rw [write_of_some (some t) s P hp, hact]
    refine ⟨fun _ => ?_, ?_, rfl⟩
    · simp [propKey, Object.get_set_same]
    · intro k hk
      simp only [propKey]
      exact Object.get_set_ne _ _ _ _ hk

/-- Witness for C5, the end-to-end example: after the python draft is
written, the python entry holds it and the javascript entry still reads as
the untouched boilerplate. -/
theorem write_touches_only_active_entry_witness :
    Object.get
        (write (some "def f(): return 1")
          (setActiveLanguage "python" (onProblemSelected (some exampleP) init))).codeCache
        "python" = some "def f(): return 1"
      ∧ Object.get
        (write (some "def f(): return 1")
          (setActiveLanguage "python" (onProblemSelected (some exampleP) init))).codeCache
        "javascript" = some "function f()\x7b\x7d" :=
  ⟨(write_touches_only_active_entry
      (setActiveLanguage "python" (onProblemSelected (some exampleP) init))
      "python" "def f(): return 1" (by decide)).1 (by decide),
    ((write_touches_only_active_entry
      (setActiveLanguage "python" (onProblemSelected (some exampleP) init))
      "python" "def f(): return 1" (by decide)).2.1 "javascript" (by decide)).trans (by decide)⟩

/-- C6 (the code at the failing input). Selecting a problem without a
`code_snippets` mapping after a draft was written for another problem: the
effect returns at line 22, so the cache still holds the other problem's
entries and `read()` returns its draft, while `availableLanguages()` is
empty. -/
theorem no_snippets_problem_keeps_stale_cache :
    (run init [Event.problemSelected (some exampleP), Event.codeChange (some "draft"),
        Event.problemSelected (some ⟨"no-snippets", none⟩)]).codeCache
        = [("javascript", "draft"), ("python", "def f(): pass")]
      ∧ read (run init [Event.problemSelected (some exampleP), Event.codeChange (some "draft"),
        Event.problemSelected (some ⟨"no-snippets", none⟩)]) = "draft"
      ∧ availableLanguages (run init [Event.problemSelected (some exampleP),
        Event.codeChange (some "draft"),
        Event.problemSelected (some ⟨"no-snippets", none⟩)]) = [] := by
  decide

/-- C7 (counterexample). With a problem selected, `setActiveLanguage` with an
identifier that is not a key of the cache does change the active language. -/
theorem setActiveLanguage_non_key_changes_language :
    "ruby" ∉ Object.keys (onProblemSelected (some exampleP) init).codeCache
      ∧ (setActiveLanguage "ruby" (onProblemSelected (some exampleP) init)).language
          ≠ (onProblemSelected (some exampleP) init).language := by
  decide

/-- C7 (amended). `setActiveLanguage(lang)` never alters the cache; with a
problem selected it sets the active language to `lang` whether or not `lang`
is a key of the cache, and with no problem selected it changes nothing. -/
theorem setActiveLanguage_sets_pointer_only (s : State) (lang : String) :
    (setActiveLanguage lang s).codeCache = s.codeCache
      ∧ (setActiveLanguage lang s).language
          = (if s.problem.isSome then some lang else s.language) := by
  obtain ⟨p, l, c⟩ := s
  cases p with
  | none => exact ⟨rfl, rfl⟩
  | some q => exact ⟨rfl, rfl⟩

/-- C8. `write` is a no-op without a problem: in every state whose `problem`
is `null` the editor is not rendered, and `write(t)` leaves the cache (and
the whole state) unchanged. -/
theorem write_without_problem_is_noop (s : State) (t : Option String)
    (hP : s.problem = none) :
    (write t s).codeCache = s.codeCache ∧ write t s = s := by
  rw [write_of_none t s hP]
  exact ⟨rfl, rfl⟩

/-- Witness for C8: after the selection became `null`, a write changes
nothing. -/
theorem write_without_problem_is_noop_witness :
    write (some "x") (run init [Event.problemSelected (some exampleP),
        Event.problemSelected none])
      = run init [Event.problemSelected (some exampleP), Event.problemSelected none] :=
  (write_without_problem_is_noop
    (run init [Event.problemSelected (some exampleP), Event.problemSelected none])
    (some "x") (by decide)).2

/-! ## Invariants over reachable states -/

theorem includes_iff (ks : List String) (l : Option String) :
    includes ks l = true ↔ ∃ x, l = some x ∧ x ∈ ks := by
  cases l with
  | none => simp [includes]
  | some x => simp [includes]

theorem includes_initialLang (cs : JSObject) (l : Option String) (hne : cs ≠ []) :
    includes (Object.keys cs)
      (if includes (Object.keys cs) l then l else (Object.keys cs).head?) = true := by
  by_cases h : includes (Object.keys cs) l = true
  · simp [h]
  · simp only [h]
    cases cs with
    | nil => exact absurd rfl hne
    | cons e rest => simp [Object.keys, includes]

theorem includes_congr (ks ks' : List String) (l : Option String)
    (h : ∀ k, k ∈ ks ↔ k ∈ ks') : includes ks l = true ↔ includes ks' l = true := by
  rw [includes_iff, includes_iff]
  constructor
  · rintro ⟨x, hx, hm⟩
    exact ⟨x, hx, (h x).mp hm⟩
  · rintro ⟨x, hx, hm⟩
    exact ⟨x, hx, (h x).mpr hm⟩

/-- The membership property is preserved by every admitted event. -/
theorem activeLanguageInvariant_step (s : State) (e : Event)
    (hinv : ActiveLanguageInvariant s) (hadm : AdmissibleWithLanguages s e) :
    ActiveLanguageInvariant (step s e) := by
  cases e with
  | problemSelected p =>
    cases p with
    | none =>
      intro h
      rw [show (step s (Event.problemSelected none)).problem = none from
        onProblemSelected_problem none s] at h
      simp at h
    | some P =>
      obtain ⟨hsome, hne⟩ := hadm
      obtain ⟨cs, hcs⟩ := Option.ne_none_iff_exists'.mp hsome
      have hne2 : cs ≠ [] := fun h => hne (by rw [hcs, h])
      show ActiveLanguageInvariant (onProblemSelected (some P) s)
      by_cases hslug : slugDep (some P) = slugDep s.problem
      · rw [onProblemSelected_of_slug_eq _ _ hslug]
        intro _
        apply hinv
        cases hp : s.problem with
        | none => rw [hp] at hslug; simp [slugDep] at hslug
        | some Q => rfl
      · have hslug2 : slugDep s.problem ≠ some P.slug := fun h => hslug (by rw [h]; rfl)
        rw [onProblemSelected_of_slug_ne P s hslug2, problemSwitchEffect_of_snippets P cs _ _ hcs]
        intro _
        exact (includes_congr _ _ _ (mem_keys_newCache cs)).mpr (includes_initialLang cs _ hne2)
  | languageChange lang =>
    show ActiveLanguageInvariant (setActiveLanguage lang s)
    cases hp : s.problem with
    | none => rw [setActiveLanguage_of_none lang s hp]; exact hinv
    | some Q =>
      rw [setActiveLanguage_of_some lang s Q hp]
      intro _
      exact (includes_iff _ _).mpr ⟨lang, rfl, hadm⟩
  | codeChange newCode =>
    show ActiveLanguageInvariant (write newCode s)
    cases hp : s.problem with
    | none => rw [write_of_none newCode s hp]; exact hinv
    | some Q =>
      rw [write_of_some newCode s Q hp]
      intro _
      obtain ⟨x, hx, hm⟩ := (includes_iff _ _).mp (hinv (by rw [hp]; rfl))
      refine (includes_iff _ _).mpr ⟨x, hx, ?_⟩
      show x ∈ Object.keys (Object.set s.codeCache (propKey s.language) (newCode.getD ""))
      rw [Object.mem_keys_set]
      exact Or.inr hm

theorem activeLanguageInvariant_run (es : List Event) (s : State)
    (hinv : ActiveLanguageInvariant s) (hadm : AdmissibleFrom AdmissibleWithLanguages s es) :
    ActiveLanguageInvariant (run s es) := by
  induction es generalizing s with
  | nil => exact hinv
  | cons e rest ih =>
    exact ih (step s e) (activeLanguageInvariant_step s e hinv hadm.1) hadm.2

/-- The strengthened key-set property is preserved by every admitted event. -/
theorem mappingInvariant_step (s : State) (e : Event)
    (hinv : MappingInvariant s) (hadm : Admissible s e) :
    MappingInvariant (step s e) := by
  cases e with
  | problemSelected p =>
    cases p with
    | none =>
      intro P cs hP _
      rw [show (step s (Event.problemSelected none)).problem = none from
        onProblemSelected_problem none s] at hP
      simp at hP
    | some P' =>
      obtain ⟨hne, hsame⟩ := hadm
      show MappingInvariant (onProblemSelected (some P') s)
      by_cases hslug : slugDep (some P') = slugDep s.problem
      · rw [onProblemSelected_of_slug_eq _ _ hslug]
        intro P cs hP hcs
        simp only [Option.some.injEq] at hP
        subst hP
        cases hp : s.problem with
        | none => rw [hp] at hslug; simp [slugDep] at hslug
        | some Q =>
          have hQ : Q.code_snippets = some cs := by
            have := hsame hslug.symm
            rw [hp] at this
            simpa [hcs] using this
          exact hinv Q cs hp hQ
      · have hslug2 : slugDep s.problem ≠ some P'.slug := fun h => hslug (by rw [h]; rfl)
        rw [onProblemSelected_of_slug_ne P' s hslug2]
        intro P cs hP hcs
        rw [problemSwitchEffect_problem] at hP
        simp only [Option.some.injEq] at hP
        subst hP
        have hne2 : cs ≠ [] := fun h => hne (by rw [hcs, h])
        rw [problemSwitchEffect_of_snippets P' cs _ _ hcs]
        exact ⟨mem_keys_newCache cs, includes_initialLang cs _ hne2⟩
  | languageChange lang =>
    show MappingInvariant (setActiveLanguage lang s)
    cases hp : s.problem with
    | none => rw [setActiveLanguage_of_none lang s hp]; exact hinv
    | some Q =>
      rw [setActiveLanguage_of_some lang s Q hp]
      intro P cs hP hcs
      have hP2 : s.problem = some P := hP
      obtain ⟨hkeys, _⟩ := hinv P cs hP2 hcs
      refine ⟨hkeys, (includes_iff _ _).mpr ⟨lang, rfl, (hkeys lang).mp hadm⟩⟩
  | codeChange newCode =>
    show MappingInvariant (write newCode s)
    cases hp : s.problem with
    | none => rw [write_of_none newCode s hp]; exact hinv
    | some Q =>
      rw [write_of_some newCode s Q hp]
      intro P cs hP hcs
      have hP2 : s.problem = some P := hP
      obtain ⟨hkeys, hlang⟩ := hinv P cs hP2 hcs
      obtain ⟨x, hx, hm⟩ := (includes_iff _ _).mp hlang
      refine ⟨fun k => ?_, hlang⟩
      show k ∈ Object.keys (Object.set s.codeCache (propKey s.language) (newCode.getD ""))
        ↔ k ∈ Object.keys cs
      rw [Object.mem_keys_set, hkeys k, hx]
      constructor
      · rintro (h | h)
        · rw [h]; exact hm
        · exact h
      · exact fun h => Or.inr h

theorem mappingInvariant_run (es : List Event) (s : State)
    (hinv : MappingInvariant s) (hadm : AdmissibleFrom Admissible s es) :
    MappingInvariant (run s es) := by
  induction es generalizing s with
  | nil => exact hinv
  | cons e rest ih =>
    exact ih (step s e) (mappingInvariant_step s e hinv hadm.1) hadm.2

theorem mappingInvariant_init : MappingInvariant init := by
  intro P cs hP _
  simp [init] at hP

theorem activeLanguageInvariant_init : ActiveLanguageInvariant init := by
  intro h
  simp [init] at h

/-- C9 (counterexample). After a problem object with the slug of the current
selection but another mapping is selected, the cache keeps the keys of the
first object: the key sets differ. -/
theorem key_set_differs_after_same_slug_reselect :
    ¬ KeySetInvariant (run init
      [Event.problemSelected (some ⟨"p", some [("javascript", "a")]⟩),
        Event.problemSelected (some ⟨"p", some [("python", "b")]⟩)]) := by
  unfold KeySetInvariant
  decide

/-- C9 (amended). In every state reached from the initial state by a sequence
of events in which each language switch picks a key of the cache, each
selected problem's mapping (if any) has at least one language, and a problem
object with the slug of the current selection carries the same mapping: if
the selected problem has a `code_snippets` mapping, the key set of the cache
equals the key set of that mapping. -/
theorem key_set_invariant_on_admissible_runs (es : List Event)
    (hadm : AdmissibleFrom Admissible init es)
    (hmap : ((run init es).problem.bind Problem.code_snippets).isSome = true) :
    KeySetInvariant (run init es) := by
  have hinv := mappingInvariant_run es init mappingInvariant_init hadm
  cases hp : (run init es).problem with
  | none => rw [hp] at hmap; simp at hmap
  | some P =>
    cases hcs : P.code_snippets with
    | none => rw [hp] at hmap; simp [hcs] at hmap
    | some cs =>
      obtain ⟨hkeys, _⟩ := hinv P cs hp hcs
      unfold KeySetInvariant
      rw [hp]
      simp only [languages, hcs]
      exact ⟨fun k hk => (hkeys k).mp hk, fun k hk => (hkeys k).mpr hk⟩

/-- Witness for C9 (amended): a session with an edit, a language switch, a
re-selection of the same slug, a deselection and a problem change. -/
theorem key_set_invariant_on_admissible_runs_witness :
    KeySetInvariant (run init
      [Event.problemSelected (some exampleP), Event.languageChange "python",
        Event.codeChange (some "def f(): return 1"), Event.problemSelected (some exampleP),
        Event.problemSelected none, Event.problemSelected (some problemB),
        Event.codeChange (some "class H")]) :=
  key_set_invariant_on_admissible_runs
    [Event.problemSelected (some exampleP), Event.languageChange "python",
      Event.codeChange (some "def f(): return 1"), Event.problemSelected (some exampleP),
      Event.problemSelected none, Event.problemSelected (some problemB),
      Event.codeChange (some "class H")]
    (by decide) (by decide)

/-- C10 (counterexample). After a problem whose mapping has no language is
selected, a problem is selected but the active language (`undefined`, the
first element of an empty array) is not a key of the empty cache. -/
theorem active_language_not_key_for_empty_mapping :
    ¬ ActiveLanguageInvariant (run init [Event.problemSelected (some ⟨"empty", some []⟩)]) := by
  unfold ActiveLanguageInvariant
  decide

/-- C10 (amended). In every state reached from the initial state by a sequence
of events in which every selected problem has a `code_snippets` mapping with
at least one language and each language switch picks a key of the cache:
whenever a problem is selected, the active language is a key of the cache. -/
theorem active_language_invariant_on_admissible_runs (es : List Event)
    (hadm : AdmissibleFrom AdmissibleWithLanguages init es) :
    ActiveLanguageInvariant (run init es) :=
  activeLanguageInvariant_run es init activeLanguageInvariant_init hadm

/-- Witness for C10 (amended): problem A, a switch to python, an edit, then
problem B, where python stays active. -/
theorem active_language_invariant_on_admissible_runs_witness :
    ActiveLanguageInvariant (run init
      [Event.problemSelected (some problemA), Event.languageChange "python",
        Event.codeChange (some "x"), Event.problemSelected (some problemB)]) :=
  active_language_invariant_on_admissible_runs
    [Event.problemSelected (some problemA), Event.languageChange "python",
      Event.codeChange (some "x"), Event.problemSelected (some problemB)]
    (by decide)

/-! ## Claims about the split layout -/

theorem onMouseMove_of_pos_width (rect : DOMRect) (clientX : ℚ) (hw : 0 < rect.width) :
    onMouseMove rect clientX
      = JSNumber.finite (min 75 (max 25 ((clientX - rect.left) / rect.width * 100))) := by
  have hne : rect.width ≠ 0 := ne_of_gt hw
  simp [onMouseMove, JSNumber.div, JSNumber.mul, Math.max, Math.min, hne]

theorem inRange_clamp (x : ℚ) : InRange (JSNumber.finite (min 75 (max 25 x))) := by
  have h1 : (25 : ℚ) ≤ min 75 (max 25 x) := le_min (by norm_num) (le_max_left _ _)
  have h2 : min 75 (max 25 x) ≤ (75 : ℚ) := min_le_left _ _
  refine ⟨⟨h1, h2⟩, ?_, ?_⟩ <;> linarith

theorem inRange_splitTrajectory (moves : List (DOMRect × ℚ)) (w : JSNumber) (hw : InRange w)
    (hpos : ∀ m ∈ moves, 0 < m.1.width) : ∀ x ∈ splitTrajectory w moves, InRange x := by
  induction moves generalizing w with
  | nil =>
    intro x hx
    simp only [splitTrajectory, List.mem_singleton] at hx
    rw [hx]; exact hw
  | cons m rest ih =>
    intro x hx
    simp only [splitTrajectory, List.mem_cons] at hx
    rcases hx with hx | hx
    · rw [hx]; exact hw
    · refine ih (onMouseMove m.1 m.2) ?_ (fun n hn => hpos n (List.mem_cons_of_mem _ hn)) x hx
      rw [onMouseMove_of_pos_width m.1 m.2 (hpos m (List.mem_cons_self _ _))]
      exact inRange_clamp _

/-- C11. Split fraction stays in range: `descriptionWidth` starts at 50; a
pointer-move over geometry of positive width sets it to the clamp of
`(clientX - left) / width * 100` to the range 25..75; and along every
sequence of such moves every value `f` taken, the initial one included, is
finite with `f` and `100 - f` both in the closed range 25..75. -/
theorem split_fraction_stays_in_range (moves : List (DOMRect × ℚ))
    (hpos : ∀ m ∈ moves, 0 < m.1.width) :
    descriptionWidthInit = JSNumber.finite 50
      ∧ (∀ m ∈ moves, onMouseMove m.1 m.2
          = JSNumber.finite (min 75 (max 25 ((m.2 - m.1.left) / m.1.width * 100))))
      ∧ (∀ x ∈ splitTrajectory descriptionWidthInit moves, InRange x) := by
  refine ⟨rfl, fun m hm => onMouseMove_of_pos_width m.1 m.2 (hpos m hm), ?_⟩
  refine inRange_splitTrajectory moves _ ?_ hpos
  simp only [descriptionWidthInit, InRange]
  norm_num

/-- Witness for C11: over a container at left 100 of width 400, after moves
to x = 0, x = 340 and x = 900 the move to x = 340 gave 60 and the value
reached by the move to x = 900 is in range. -/
theorem split_fraction_stays_in_range_witness :
    onMouseMove ⟨100, 400⟩ 340 = JSNumber.finite 60
      ∧ InRange (onMouseMove ⟨100, 400⟩ 900) :=
  have hpos : ∀ m ∈ [((⟨100, 400⟩ : DOMRect), (0 : ℚ)), (⟨100, 400⟩, 340), (⟨100, 400⟩, 900)],
      0 < m.1.width := by
    intro m hm
    simp only [List.mem_cons, List.mem_singleton, List.not_mem_nil, or_false] at hm
    rcases hm with hm | hm | hm <;> rw [hm] <;> norm_num
  ⟨((split_fraction_stays_in_range _ hpos).2.1 (⟨100, 400⟩, 340) (by simp)).trans
      (by norm_num),
    (split_fraction_stays_in_range _ hpos).2.2 (onMouseMove ⟨100, 400⟩ 900)
      (by simp [splitTrajectory])⟩

/-- C12 (counterexample). With a zero-width container and the pointer exactly
on its left edge the computation is `0 / 0`: the value passed to
`setDescriptionWidth` is NaN, not a number in the range. -/
theorem zero_width_on_left_edge_gives_nan :
    onMouseMove ⟨10, 0⟩ 10 = JSNumber.nan ∧ ¬ InRange (onMouseMove ⟨10, 0⟩ 10) := by
  have h : onMouseMove ⟨10, 0⟩ 10 = JSNumber.nan := by
    simp [onMouseMove, JSNumber.div, JSNumber.mul, Math.max, Math.min]
  rw [h]
  exact ⟨rfl, fun hr => hr⟩

/-- C12 (amended). For a pointer-move whose captured container width is zero
and whose `clientX` differs from the captured left edge, the drag computation
yields a split fraction in the range: 75 when the pointer is right of the
edge and 25 when it is left of it. -/
theorem zero_width_off_edge_is_clamped (rect : DOMRect) (clientX : ℚ)
    (hw : rect.width = 0) (hne : clientX ≠ rect.left) :
    InRange (onMouseMove rect clientX)
      ∧ (rect.left < clientX → onMouseMove rect clientX = JSNumber.finite 75)
      ∧ (clientX < rect.left → onMouseMove rect clientX = JSNumber.finite 25) := by
  have hsub : clientX - rect.left ≠ 0 := sub_ne_zero.mpr hne
  rcases lt_or_gt_of_ne hne with hlt | hgt
  · have hneg : ¬ (0 < clientX - rect.left) := by linarith
    have hval : onMouseMove rect clientX = JSNumber.finite 25 := by
      simp [onMouseMove, JSNumber.div, JSNumber.mul, Math.max, Math.min, hw, hsub, hneg]
      norm_num
    rw [hval]
    refine ⟨?_, fun h => absurd h (by linarith), fun _ => rfl⟩
    simp only [InRange]; norm_num
  · have hpos : 0 < clientX - rect.left := by linarith
    have hval : onMouseMove rect clientX = JSNumber.finite 75 := by
      simp [onMouseMove, JSNumber.div, JSNumber.mul, Math.max, Math.min, hw, hsub, hpos]
    rw [hval]
    refine ⟨?_, fun _ => rfl, fun h => absurd h (by linarith)⟩
    simp only [InRange]; norm_num

/-- Witness for C12 (amended): zero width, pointer right of the left edge. -/
theorem zero_width_off_edge_is_clamped_witness :
    onMouseMove ⟨10, 0⟩ 11 = JSNumber.finite 75 :=
  (zero_width_off_edge_is_clamped ⟨10, 0⟩ 11 rfl (by norm_num)).2.1 (by norm_num)

/-- C13. Every split change re-lays out the editor: with the editor stored in
`editorRef`, every pointer-move that changes `descriptionWidth` and every
change of the `layoutSignal` prop runs `layout()` at least once, and the
layout effect leaves the session state (`codeCache`, `language`)
unchanged. -/
theorem layout_runs_on_every_change (s : LayoutState) (hm : s.editorRef = true) :
    (∀ rect clientX, (pointerMove rect clientX s).descriptionWidth ≠ s.descriptionWidth →
        s.layoutCalls < (pointerMove rect clientX s).layoutCalls
          ∧ (pointerMove rect clientX s).session = s.session)
      ∧ (∀ signal, signal ≠ s.layoutSignal →
        s.layoutCalls < (onLayoutSignal signal s).layoutCalls
          ∧ (onLayoutSignal signal s).session = s.session)
      ∧ (layoutEffect s).session = s.session := by
  refine ⟨fun rect clientX hch => ?_, fun signal hsig => ?_, ?_⟩
  · by_cases heq : onMouseMove rect clientX = s.descriptionWidth
    · exact absurd (by simp [pointerMove, setDescriptionWidth, heq]) hch
    · simp [pointerMove, setDescriptionWidth, heq, layoutEffect, hm]
  · simp [onLayoutSignal, hsig, layoutEffect, hm]
  · simp [layoutEffect, hm]

/-- Witness for C13: a move from 50 to 60 with the editor mounted makes one
more `layout()` call. -/
theorem layout_runs_on_every_change_witness :
    (0 : Nat) < (pointerMove ⟨100, 400⟩ 340
      ⟨init, descriptionWidthInit, 0, true, 0⟩).layoutCalls :=
  ((layout_runs_on_every_change ⟨init, descriptionWidthInit, 0, true, 0⟩ rfl).1
    ⟨100, 400⟩ 340 (by
      simp [pointerMove, setDescriptionWidth, onMouseMove, JSNumber.div, JSNumber.mul,
        Math.max, Math.min, descriptionWidthInit, layoutEffect]
      norm_num)).1

end Workspace

namespace ProblemDashboard

/-! ## Claims about the catalog filter -/

theorem string_eq_empty_of_data (q : String) (h : q.data = []) : q = "" := by
  cases q
  simp_all

theorem matchesTopic_iff (selectedTopic : Option String) (p : ProblemSummary) :
    matchesTopic selectedTopic p = true ↔
      (NoTopicSelected selectedTopic ∨ ∃ t, selectedTopic = some t ∧ t ∈ p.topics.getD []) := by
  cases selectedTopic with
  | none => simp [matchesTopic, NoTopicSelected]
  | some t => simp [matchesTopic, NoTopicSelected]

theorem fieldMatches_iff (toLowerCase : String → String) (hlower : toLowerCase "" = "")
    (v : Option String) (q : String) (hq : q ≠ "") :
    fieldMatches toLowerCase v q = true ↔
      ∃ s, v = some s ∧ q.data <:+: (toLowerCase s).data := by
  cases v with
  | none => simp [fieldMatches]
  | some s =>
    simp only [fieldMatches, includes, Bool.and_eq_true, bne_iff_ne, ne_eq, decide_eq_true_eq,
      Option.some.injEq, exists_eq_left']
    constructor
    · exact fun h => h.2
    · intro h
      refine ⟨fun hs => ?_, h⟩
      subst hs
      rw [hlower] at h
      exact hq (string_eq_empty_of_data q (List.infix_nil.mp h))

theorem matchesQuery_iff (toLowerCase : String → String) (hlower : toLowerCase "" = "")
    (q : String) (p : ProblemSummary) :
    matchesQuery toLowerCase q p = true ↔
      (q = "" ∨ (∃ title, p.title = some title ∧ q.data <:+: (toLowerCase title).data)
        ∨ (∃ slug, p.slug = some slug ∧ q.data <:+: (toLowerCase slug).data)) := by
  by_cases hq : q = ""
  · simp [matchesQuery, hq]
  · simp only [matchesQuery, Bool.or_eq_true, beq_iff_eq, hq, false_or,
      fieldMatches_iff toLowerCase hlower _ q hq]

/-- C14. Catalog filter, for the built-ins `trim` and `toLowerCase` whatever
they compute, given only that lower-casing the empty string gives the empty
string: `filteredProblems` is `problems` filtered, in order, by a test that
holds exactly for the problems `p` with (no topic selected or the selected
topic among `p.topics`) and (the trimmed, lower-cased query empty or a
substring of the lower-cased title or of the lower-cased slug); a problem is
in it exactly when it is in `problems` and meets that condition; it is a
sublist of `problems`; and with no topic and a query that trims to the empty
string it is the whole list. -/
theorem filteredProblems_keeps_exactly_matching (trim toLowerCase : String → String)
    (hlower : toLowerCase "" = "") (problems : List ProblemSummary)
    (selectedTopic : Option String) (searchQuery : String) :
    (∃ keep : ProblemSummary → Bool,
        (∀ p, keep p = true ↔ SpecKeeps trim toLowerCase selectedTopic searchQuery p)
          ∧ filteredProblems trim toLowerCase problems selectedTopic searchQuery
              = problems.filter keep)
      ∧ (∀ p, p ∈ filteredProblems trim toLowerCase problems selectedTopic searchQuery ↔
          p ∈ problems ∧ SpecKeeps trim toLowerCase selectedTopic searchQuery p)
      ∧ (filteredProblems trim toLowerCase problems selectedTopic searchQuery).Sublist problems
      ∧ (NoTopicSelected selectedTopic → trim searchQuery = "" →
          filteredProblems trim toLowerCase problems selectedTopic searchQuery = problems) := by
  have hkeep : ∀ p, (matchesTopic selectedTopic p
      && matchesQuery toLowerCase (toLowerCase (trim searchQuery)) p) = true
        ↔ SpecKeeps trim toLowerCase selectedTopic searchQuery p := by
    intro p
    simp only [Bool.and_eq_true, matchesTopic_iff, matchesQuery_iff toLowerCase hlower,
      SpecKeeps]
  refine ⟨⟨fun p => matchesTopic selectedTopic p
      && matchesQuery toLowerCase (toLowerCase (trim searchQuery)) p, hkeep, rfl⟩, ?_, ?_, ?_⟩
  · intro p
    unfold filteredProblems
    rw [List.mem_filter, hkeep p]
  · exact List.filter_sublist _
  · intro htopic hblank
    unfold filteredProblems
    rw [List.filter_eq_self]
    intro p _
    exact (hkeep p).mpr ⟨Or.inl htopic, Or.inl (by rw [hblank, hlower])⟩

/-- Witness for C14: on the sample catalog with topic "array" and the query
"  SUM " the filter keeps "Two Sum" and "3Sum Closest" and drops "Add
Binary", which has neither the topic nor the query in its title or slug. -/
theorem filteredProblems_keeps_exactly_matching_witness :
    (⟨some "Two Sum", some "two-sum", some ["array"]⟩ : ProblemSummary)
        ∈ filteredProblems asciiTrim asciiToLowerCase sampleCatalog (some "array") "  SUM "
      ∧ (⟨some "Add Binary", some "add-binary", none⟩ : ProblemSummary)
        ∉ filteredProblems asciiTrim asciiToLowerCase sampleCatalog (some "array") "  SUM "
      ∧ filteredProblems asciiTrim asciiToLowerCase sampleCatalog (some "array") "  SUM "
        = [⟨some "Two Sum", some "two-sum", some ["array"]⟩,
           ⟨some "3Sum Closest", some "3sum-closest", some ["array", "sorting"]⟩] :=
  ⟨((filteredProblems_keeps_exactly_matching asciiTrim asciiToLowerCase rfl sampleCatalog
        (some "array") "  SUM ").2.1 _).mpr
      ⟨by decide, Or.inr ⟨"array", rfl, by decide⟩,
        Or.inr (Or.inl ⟨"Two Sum", rfl, by decide⟩)⟩,
    fun hmem =>
      (((filteredProblems_keeps_exactly_matching asciiTrim asciiToLowerCase rfl sampleCatalog
        (some "array") "  SUM ").2.1 _).mp hmem).2.1.elim
        (fun h => h.elim (fun h1 => Option.noConfusion h1) (fun h2 => by simp at h2))
        (fun h => by
          obtain ⟨t, _, ht⟩ := h
          simp at ht),
    by decide⟩

end ProblemDashboard

namespace Server

/-! ## Claims about the code execution route -/

/-- The five identifiers of `languageMap` are sent on with their mapped
`language` and `versionIndex`. -/
theorem runCode_supported :
    runCode (some "javascript") = Outcome.execute (some "nodejs") (some "4")
      ∧ runCode (some "python3") = Outcome.execute (some "python3") (some "4")
      ∧ runCode (some "python") = Outcome.execute (some "python3") (some "4")
      ∧ runCode (some "cpp") = Outcome.execute (some "cpp17") (some "1")
      ∧ runCode (some "java") = Outcome.execute (some "java") (some "4") := by
  decide

/-- A language that is neither an own key of `languageMap` nor a name
inherited from `Object.prototype` (a missing language among them) is answered
with 400 and nothing is sent on. -/
theorem runCode_rejects_unknown (language : Option String)
    (hown : languageMap.lookup (Workspace.propKey language) = none)
    (hproto : Workspace.propKey language ∉ objectPrototypeKeys) :
    runCode language = Outcome.respond 400 "Language unsupported" := by
  simp [runCode, lookup, hown, hproto]

/-- C15 (the code at the failing input). For the language names
"constructor" and "toString", which are not among the five identifiers, the
lookup finds the member inherited from `Object.prototype`; the handler does
not answer 400 but sends a request with `language` and `versionIndex`
undefined to the execution service.  A missing language is answered
with 400. -/
theorem inherited_names_reach_execution_service :
    runCode (some "constructor") = Outcome.execute none none
      ∧ runCode (some "toString") = Outcome.execute none none
      ∧ runCode none = Outcome.respond 400 "Language unsupported" := by
  decide

end Server
